import Mathlib

/-!
Verification of the osi config store (`osi/src/config.cc`): in-memory data
model of sections and entries, the typed getters built on the C `strtol`
family, `config_set_string` with its newline truncation, the line-oriented
parser `config_parse`, and the serialization and commit protocol of
`config_save`.  C strings are embedded as `List Char`; machine integers as
`Nat`/`Int` with explicit reductions modulo powers of two.
-/

set_option maxHeartbeats 1000000
set_option maxRecDepth 100000

abbrev Str := List Char

/-- `entry_t`: a key/value pair of C strings (config.cc lines 42-45). -/
structure entry_t where
  key : Str
  value : Str
deriving DecidableEq

/-- `section_t`: a named ordered list of entries (config.cc lines 47-50). -/
structure section_t where
  name : Str
  entries : List entry_t
deriving DecidableEq

/-- `config_t`: an ordered list of sections (config.cc lines 52-54). -/
structure config_t where
  sections : List section_t
deriving DecidableEq

/-- `config_new_empty` (config.cc line 70): a config with no sections. -/
def config_new_empty : config_t := ⟨[]⟩

/-- `section_find` (config.cc line 617): first section with the given name. -/
def section_find (config : config_t) (name : Str) : Option section_t :=
  config.sections.find? (fun sec => sec.name == name)

/-- `entry_find` (config.cc line 644): first entry with the given key inside
the first section with the given name. -/
def entry_find (config : config_t) (sec key : Str) : Option entry_t :=
  match section_find config sec with
  | none => none
  | some s => s.entries.find? (fun e => e.key == key)

/-- The newline truncation inside `config_set_string` (config.cc lines
280-288): `value_string.substr(0, newline_position)` at the first `'\n'`,
or the whole value when none occurs. -/
def value_no_newline (v : Str) : Str :=
  match v.findIdx? (fun c => c == '\n') with
  | some i => v.take i
  | none => v

/-- The entry-update loop of `config_set_string` (config.cc lines 291-302):
replace the value of the first entry whose key matches, in place, keeping the
entry position; otherwise append a new entry at the end. -/
def entry_list_set (es : List entry_t) (key v : Str) : List entry_t :=
  match es with
  | [] => [⟨key, v⟩]
  | e :: rest =>
    if e.key = key then ⟨e.key, v⟩ :: rest
    else e :: entry_list_set rest key v

/-- The section handling of `config_set_string` (config.cc lines 270-278):
update the first section whose name matches; if none matches, append a fresh
section (holding the single new entry) at the end of the section list. -/
def section_list_set (ss : List section_t) (name key v : Str) : List section_t :=
  match ss with
  | [] => [⟨name, [⟨key, v⟩]⟩]
  | s :: rest =>
    if s.name = name then ⟨s.name, entry_list_set s.entries key v⟩ :: rest
    else s :: section_list_set rest name key v

/-- `config_set_string` (config.cc lines 268-304). -/
def config_set_string (config : config_t) (sec key v : Str) : config_t :=
  ⟨section_list_set config.sections sec key (value_no_newline v)⟩

/-- `config_get_string` (config.cc lines 214-224). -/
def config_get_string (config : config_t) (sec key def_value : Str) : Str :=
  match entry_find config sec key with
  | none => def_value
  | some e => e.value

/-- `isspace` of the C locale, as used by `strtol` and `trim`. -/
def c_isspace (c : Char) : Bool :=
  c = ' ' || c = '\t' || c = '\n' || c = '\x0b' || c = '\x0c' || c = '\r'

def isDecDigit (c : Char) : Bool := '0' ≤ c && c ≤ '9'

def isOctDigit (c : Char) : Bool := '0' ≤ c && c ≤ '7'

def isHexDigit (c : Char) : Bool :=
  isDecDigit c || ('a' ≤ c && c ≤ 'f') || ('A' ≤ c && c ≤ 'F')

def digitVal (c : Char) : Nat :=
  if isDecDigit c then c.toNat - '0'.toNat
  else if 'a' ≤ c && c ≤ 'f' then c.toNat - 'a'.toNat + 10
  else c.toNat - 'A'.toNat + 10

/-- Digit-accumulation loop shared by the `strtol` family: consume digits
accepted by `isd`, folding them into `acc` in the given base, and return the
accumulated magnitude together with the unconsumed suffix. -/
def readDigits (isd : Char → Bool) (base : Nat) : Str → Nat → Nat × Str
  | [], acc => (acc, [])
  | c :: rest, acc =>
    if isd c then readDigits isd base rest (base * acc + digitVal c)
    else (acc, c :: rest)

/-- Common core of `strtol`, `strtoumax` and `strtoull` with base 0 (the
base-auto-detection mode the getters use): skip `isspace` characters, accept
one optional sign, then detect the base — `0x`/`0X` followed by a hex digit
means base 16, a leading `0` means base 8, anything else base 10.  Returns
`none` when no conversion is performed (the C functions then leave `endptr`
at the original start), otherwise the sign, the magnitude and the unconsumed
suffix. -/
def strtoCore (s : Str) : Option (Bool × Nat × Str) :=
  let s1 := s.dropWhile c_isspace
  let p : Bool × Str :=
    match s1 with
    | [] => (false, [])
    | c :: r =>
      if c = '-' then (true, r)
      else if c = '+' then (false, r)
      else (false, c :: r)
  match p.2 with
  | [] => none
  | c0 :: t =>
    if c0 = '0' then
      match t with
      | [] => some (p.1, 0, [])
      | c :: r =>
        if c = 'x' || c = 'X' then
          match r with
          | [] => some (p.1, 0, c :: r)
          | d :: _ =>
            if isHexDigit d then some (p.1, readDigits isHexDigit 16 r 0)
            else some (p.1, 0, c :: r)
        else some (p.1, readDigits isOctDigit 8 (c :: r) 0)
    else if isDecDigit c0 then some (p.1, readDigits isDecDigit 10 (c0 :: t) 0)
    else none

/-- `strtol(s, &endptr, 0)` on an LP64 platform: 64-bit `long`, clamped to
`LONG_MAX`/`LONG_MIN` on overflow.  Returns the value and the suffix starting
at `endptr`. -/
def strtol (s : Str) : Int × Str :=
  match strtoCore s with
  | none => (0, s)
  | some (neg, m, rest) =>
    let v : Int :=
      if neg then (if (2 : Int) ^ 63 < (m : Int) then -(2 ^ 63) else -(m : Int))
      else (if (2 : Int) ^ 63 - 1 < (m : Int) then 2 ^ 63 - 1 else (m : Int))
    (v, rest)

/-- `strtoumax(s, &endptr, 0)` with 64-bit `uintmax_t`: clamped to
`UINTMAX_MAX` on overflow, a negated value reduced in unsigned arithmetic. -/
def strtoumax (s : Str) : Nat × Str :=
  match strtoCore s with
  | none => (0, s)
  | some (neg, m, rest) =>
    let v : Nat :=
      if 2 ^ 64 ≤ m then 2 ^ 64 - 1
      else if neg then (2 ^ 64 - m) % 2 ^ 64
      else m
    (v, rest)

/-- `strtoull(s, &endptr, 0)` with 64-bit `unsigned long long`: identical
behaviour to `strtoumax` on this platform. -/
def strtoull (s : Str) : Nat × Str := strtoumax s

/-- The implicit conversion from `long` to `int` in `config_get_int`:
two's-complement truncation to 32 bits. -/
def int_of_long (z : Int) : Int := (z + 2 ^ 31) % 2 ^ 32 - 2 ^ 31

/-- `config_get_int` (config.cc lines 157-169): look up the entry, run
`strtol` with base 0 on its value, and return the (int-truncated) result if
the parse consumed the whole value, the caller's default otherwise. -/
def config_get_int (config : config_t) (sec key : Str) (def_value : Int) : Int :=
  match entry_find config sec key with
  | none => def_value
  | some e =>
    let r := strtol e.value
    if r.2 = [] then int_of_long r.1 else def_value

/-- `config_get_uint16` (config.cc lines 171-183): the `strtoumax` result is
cast to `uint16_t` (reduction modulo `2 ^ 16`) before the endptr check. -/
def config_get_uint16 (config : config_t) (sec key : Str) (def_value : Nat) : Nat :=
  match entry_find config sec key with
  | none => def_value
  | some e =>
    let r := strtoumax e.value
    let ret := r.1 % 2 ^ 16
    if r.2 = [] then ret else def_value

/-- `config_get_uint64` (config.cc lines 185-197). -/
def config_get_uint64 (config : config_t) (sec key : Str) (def_value : Nat) : Nat :=
  match entry_find config sec key with
  | none => def_value
  | some e =>
    let r := strtoull e.value
    if r.2 = [] then r.1 else def_value

/-- The text `config_save` writes for one entry (config.cc line 452):
`fprintf(fp, "%s = %s\n", entry->key, entry->value)`. -/
def entry_line_text (e : entry_t) : Str :=
  e.key ++ ' ' :: '=' :: ' ' :: (e.value ++ ['\n'])

/-- The text `config_save` writes for one section (config.cc lines 436-457):
the stored name verbatim — with no newline — when it begins with `'#'`,
otherwise `[name]` plus a newline; then one line per entry. -/
def section_text (s : section_t) : Str :=
  (if s.name.head? = some '#' then s.name
   else '[' :: (s.name ++ (']' :: '\n' :: []))) ++
  (s.entries.map entry_line_text).flatten

/-- The full text `config_save` writes (config.cc lines 436-467): the
sections in order, with a single separating `'\n'` between consecutive
sections and nothing after the last one. -/
def config_save_text (sections : List section_t) : Str :=
  match sections with
  | [] => []
  | [s] => section_text s
  | s :: rest => section_text s ++ '\n' :: config_save_text rest

def config_save_string (config : config_t) : Str :=
  config_save_text config.sections

/-- Modelled from the spec: `CONFIG_DEFAULT_SECTION`, the reserved default
section name, is declared in `osi/include/config.h` which is not part of the
sources; the spec fixes only its existence ("one reserved section name is
the default section"), not its text, so an arbitrary concrete name is
used. -/
def CONFIG_DEFAULT_SECTION : Str := "Global".data

/-- `trim` (config.cc lines 525-535): skip leading `isspace` characters and
cut the string after its last non-`isspace` character. -/
def trimChars (s : Str) : Str :=
  ((s.dropWhile c_isspace).reverse.dropWhile c_isspace).reverse

/-- The in-place effect of `trim(line)` on `strlen(line)` (the length check
at config.cc line 553 runs after `trim`): `trim` writes a terminator after
the last non-space character, so `strlen` becomes the original length minus
the trailing whitespace — except that an all-whitespace line leaves the
buffer untouched. -/
def strlen_after_trim (line : Str) : Nat :=
  if line.all c_isspace then line.length
  else line.length - (line.reverse.takeWhile c_isspace).length

/-- `fgets(line, 1024, fp)` (config.cc line 548): read at most `n` (= 1023)
characters, stopping after the first newline; return the chunk and the
remaining stream. -/
def fgets_take : Nat → Str → Str × Str
  | 0, rest => ([], rest)
  | _ + 1, [] => ([], [])
  | n + 1, c :: rest =>
    if c = '\n' then ([c], rest)
    else
      let p := fgets_take n rest
      (c :: p.1, p.2)

/-- The `fgetc` discard loop of the oversized-line branch (config.cc lines
554-557): read and drop characters until EOF or a newline (inclusive). -/
def discard_line (s : Str) : Str :=
  (s.dropWhile (fun c => !(c == '\n'))).drop 1

theorem fgets_take_snd_le (n : Nat) (s : Str) : (fgets_take n s).2.length ≤ s.length := by
  induction n generalizing s with
  | zero => simp [fgets_take]
  | succ n ih =>
    cases s with
    | nil => simp [fgets_take]
    | cons c rest =>
      simp only [fgets_take]
      split
      · simp
      · exact le_trans (ih rest) (by simp)

theorem fgets_take_snd_lt (n : Nat) (s : Str) (hs : s ≠ []) (hn : 0 < n) :
    (fgets_take n s).2.length < s.length := by
  cases n with
  | zero => omega
  | succ n =>
    cases s with
    | nil => exact absurd rfl hs
    | cons c rest =>
      simp only [fgets_take]
      split
      · simp
      · exact lt_of_le_of_lt (fgets_take_snd_le n rest) (by simp)

theorem discard_line_le (s : Str) : (discard_line s).length ≤ s.length := by
  unfold discard_line
  calc ((s.dropWhile (fun c => !(c == '\n'))).drop 1).length
      ≤ (s.dropWhile (fun c => !(c == '\n'))).length := by simp
    _ ≤ s.length := (List.dropWhile_sublist _).length_le

/-- The chunking behaviour of the read loop of `config_parse` (config.cc
lines 548-558), with an explicit fuel (each iteration consumes at least one
character, so `input.length` fuel always suffices): repeatedly `fgets` a
chunk of at most 1023 characters; a chunk whose post-`trim` `strlen` is
exactly 1023 is dropped together with the rest of its physical line, all
other chunks become lines of the state machine. -/
def split_lines_fuel : Nat → Str → List Str
  | 0, _ => []
  | fuel + 1, input =>
    if input = [] then []
    else
      let p := fgets_take 1023 input
      if strlen_after_trim p.1 = 1023 then split_lines_fuel fuel (discard_line p.2)
      else p.1 :: split_lines_fuel fuel p.2

def split_lines (input : Str) : List Str :=
  split_lines_fuel input.length input

theorem split_lines_fuel_nil (fuel : Nat) : split_lines_fuel fuel [] = [] := by
  cases fuel <;> simp [split_lines_fuel]

theorem split_lines_fuel_le (fuel : Nat) :
    ∀ (fuel' : Nat) (input : Str), input.length ≤ fuel → input.length ≤ fuel' →
      split_lines_fuel fuel input = split_lines_fuel fuel' input := by
  induction fuel with
  | zero =>
    intro fuel' input h _
    rw [List.length_eq_zero.mp (Nat.le_zero.mp h)]
    rw [split_lines_fuel_nil, split_lines_fuel_nil]
  | succ fuel ih =>
    intro fuel' input h h'
    by_cases hnil : input = []
    · rw [hnil, split_lines_fuel_nil, split_lines_fuel_nil]
    · cases fuel' with
      | zero =>
        exact absurd (List.length_eq_zero.mp (Nat.le_zero.mp h')) hnil
      | succ fuel' =>
        have hlt : (fgets_take 1023 input).2.length < input.length :=
          fgets_take_snd_lt 1023 input hnil (by omega)
        have hd : (discard_line (fgets_take 1023 input).2).length
            ≤ (fgets_take 1023 input).2.length := discard_line_le _
        simp only [split_lines_fuel, if_neg hnil]
        split
        · exact ih fuel' _ (by omega) (by omega)
        · rw [ih fuel' _ (by omega) (by omega)]

/-- The one-step unfolding of `split_lines` on a nonempty input. -/
theorem split_lines_eq (input : Str) (h : input ≠ []) :
    split_lines input =
      if strlen_after_trim (fgets_take 1023 input).1 = 1023 then
        split_lines (discard_line (fgets_take 1023 input).2)
      else (fgets_take 1023 input).1 :: split_lines (fgets_take 1023 input).2 := by
  have hlt : (fgets_take 1023 input).2.length < input.length :=
    fgets_take_snd_lt 1023 input h (by omega)
  have hd : (discard_line (fgets_take 1023 input).2).length
      ≤ (fgets_take 1023 input).2.length := discard_line_le _
  cases hl : input.length with
  | zero => exact absurd (List.length_eq_zero.mp hl) h
  | succ n =>
    unfold split_lines
    rw [hl]
    simp only [split_lines_fuel, if_neg h]
    rw [hl] at hlt
    split
    · exact split_lines_fuel_le n _ _ (by omega) (le_refl _)
    · exact congrArg _ (split_lines_fuel_le n _ _ (by omega) (le_refl _))

/-- The mutable state of `config_parse` (config.cc lines 541-545): the
config under construction, the `section` buffer, and `skip_entries`. -/
structure parse_state where
  config : config_t
  sec : Str
  skip_entries : Bool
deriving DecidableEq

/-- The comment branch of `config_parse` (config.cc lines 564-571): a line
starting with `'#'` becomes a comment pseudo-section appended at the end,
unless a section with that exact name already exists. -/
def comment_step (st : parse_state) (t : Str) : parse_state :=
  if (section_find st.config t).isSome then st
  else { st with config := ⟨st.config.sections ++ [⟨t, []⟩]⟩ }

/-- The `strchr`/split of the key-value branch (config.cc lines 583-594):
split at the first `'='`, or fail when there is none. -/
def kv_split (t : Str) : Option (Str × Str) :=
  match t.findIdx? (fun c => c == '=') with
  | none => none
  | some i => some (t.take i, t.drop (i + 1))

/-- One iteration of the `config_parse` line loop below the length check
(config.cc lines 560-595): trim, skip blanks, handle comments, section
headers (malformed ones set `skip_entries` and keep the section), and
key/value lines via `config_set_string`. -/
def parse_line_step (st : parse_state) (chunk : Str) : parse_state :=
  match trimChars chunk with
  | [] => st
  | c :: rest =>
    if c = '#' then comment_step st (c :: rest)
    else if c = '[' then
      if List.getLastD rest c ≠ ']' then { st with skip_entries := true }
      else { st with sec := ((c :: rest).drop 1).dropLast, skip_entries := false }
    else
      if st.skip_entries then st
      else
        match kv_split (c :: rest) with
        | none => st
        | some p =>
          { st with
            config := config_set_string st.config st.sec (trimChars p.1) (trimChars p.2) }

/-- `config_parse` (config.cc lines 537-598) on a whole input stream: fold
the line state machine over the chunks, starting from the given config,
`CONFIG_DEFAULT_SECTION` and `skip_entries = false`. -/
def config_parse (input : Str) (config : config_t) : config_t :=
  ((split_lines input).foldl parse_line_step ⟨config, CONFIG_DEFAULT_SECTION, false⟩).config

/-- `config_new` (config.cc lines 86-107) at text level: parse the stream
into a fresh empty config. -/
def config_new_text (input : Str) : config_t :=
  config_parse input config_new_empty

/-- Outcomes of the system calls made by `config_save` (config.cc lines
390-523); `true` means the call succeeds.  The two `fsync` outcomes are
recorded even though the code only logs a warning when they fail. -/
structure save_env where
  dirname_ok : Bool
  open_dir_ok : Bool
  fopen_ok : Bool
  write_ok : Bool
  fsync_file_ok : Bool
  fclose_ok : Bool
  chmod_ok : Bool
  rename_ok : Bool
  fsync_dir_ok : Bool
  close_dir_ok : Bool
deriving DecidableEq

/-- The externally visible filesystem state for one target path: the content
of the target file and of its `.new` temporary sibling, when they exist. -/
structure fs_state where
  target : Option Str
  temp : Option Str
deriving DecidableEq

/-- The `error:` exit path of `config_save` (config.cc lines 514-522):
`unlink(temp_filename)` removes the temporary file if it exists, and the
function reports failure. -/
def save_error (fs : fs_state) : Bool × fs_state :=
  (false, { fs with temp := none })

/-- `config_save` (config.cc lines 390-523) as a step protocol over the
syscall outcomes: `dirname`, `open` on the directory, `fopen` on the temp
file (truncating it), the `fprintf` loop, `fsync` on the temp file (failure
only logged, line 471), `fclose`, `chmod`, `rename` (which atomically moves
the temp content onto the target), `fsync` on the directory (failure only
logged, line 498), and `close` of the directory fd. -/
def config_save_io (env : save_env) (config : config_t) (fs : fs_state) :
    Bool × fs_state :=
  if !env.dirname_ok then save_error fs
  else if !env.open_dir_ok then save_error fs
  else if !env.fopen_ok then save_error fs
  else
    let fs1 : fs_state := { fs with temp := some [] }
    if !env.write_ok then save_error fs1
    else
      let fs2 : fs_state := { fs1 with temp := some (config_save_string config) }
      if !env.fclose_ok then save_error fs2
      else if !env.chmod_ok then save_error fs2
      else if !env.rename_ok then save_error fs2
      else
        let fs3 : fs_state := { fs2 with target := fs2.temp, temp := none }
        if !env.close_dir_ok then save_error fs3
        else (true, fs3)

theorem value_no_newline_eq_takeWhile (v : Str) :
    value_no_newline v = v.takeWhile (fun c => !(c == '\n')) := by
  induction v with
  | nil => rfl
  | cons c v ih =>
    by_cases hc : c = '\n'
    · subst hc
      simp [value_no_newline, List.findIdx?_cons, List.takeWhile_cons]
    · cases h : v.findIdx? (fun ch => ch == '\n') with
      | none =>
        have hv : value_no_newline v = v := by simp [value_no_newline, h]
        rw [hv] at ih
        simp [value_no_newline, List.findIdx?_cons, hc, h, List.takeWhile_cons, ← ih]
      | some i =>
        have hv : value_no_newline v = v.take i := by simp [value_no_newline, h]
        rw [hv] at ih
        simp [value_no_newline, List.findIdx?_cons, hc, h, List.takeWhile_cons, ← ih,
          List.take_succ_cons]

theorem find?_entry_list_set (es : List entry_t) (k v : Str) :
    (entry_list_set es k v).find? (fun e => e.key == k) = some ⟨k, v⟩ := by
  induction es with
  | nil => simp [entry_list_set]
  | cons e rest ih =>
    by_cases h : e.key = k
    · simp [entry_list_set, h]
    · simp [entry_list_set, h, ih]

theorem entry_find_set (c : config_t) (s k v : Str) :
    entry_find (config_set_string c s k v) s k = some ⟨k, value_no_newline v⟩ := by
  obtain ⟨ss⟩ := c
  unfold entry_find section_find config_set_string
  simp only
  generalize value_no_newline v = w
  induction ss with
  | nil => simp [section_list_set, find?_entry_list_set]
  | cons hd tl ih =>
    by_cases h : hd.name = s
    · simp [section_list_set, h, find?_entry_list_set]
    · simpa [section_list_set, h] using ih

/-- C3: for every section name, key and value containing a newline,
`config_set_string` stores only the text of the value preceding the first
newline and a later `config_get_string` returns that truncated text; values
without a newline are stored unchanged. -/
theorem c3_newline_truncation (c : config_t) (s k v d : Str) :
    ('\n' ∈ v →
      config_get_string (config_set_string c s k v) s k d
        = v.takeWhile (fun ch => !(ch == '\n'))) ∧
    ('\n' ∉ v → config_get_string (config_set_string c s k v) s k d = v) := by
  have hget : config_get_string (config_set_string c s k v) s k d = value_no_newline v := by
    simp [config_get_string, entry_find_set]
  constructor
  · intro _
    rw [hget, value_no_newline_eq_takeWhile]
  · intro hnot
    rw [hget, value_no_newline_eq_takeWhile, List.takeWhile_eq_self_iff.mpr]
    intro ch hch
    simp only [Bool.not_eq_true', beq_eq_false_iff_ne, ne_eq]
    intro h
    exact hnot (h ▸ hch)

theorem c3_newline_truncation_witness :
    '\n' ∈ "a\nb".data ∧
    config_get_string (config_set_string config_new_empty "S".data "k".data "a\nb".data)
        "S".data "k".data [] = "a\nb".data.takeWhile (fun ch => !(ch == '\n')) :=
  ⟨by decide, (c3_newline_truncation config_new_empty "S".data "k".data "a\nb".data []).1
    (by decide)⟩

/-- The decimal reading of a digit string, following the spec's words ("parse
the stored text as a base-auto-detected integer (supports decimal ...)"):
used to compare the `strtol` embedding against a plain decimal value. -/
def dec_value (s : Str) : Nat :=
  s.foldl (fun a c => 10 * a + (c.toNat - '0'.toNat)) 0

theorem readDigits_all (isd : Char → Bool) (b : Nat) (l : Str) :
    ∀ a : Nat, (∀ c ∈ l, isd c = true) →
      readDigits isd b l a = (l.foldl (fun x c => b * x + digitVal c) a, []) := by
  induction l with
  | nil => intro a _; simp [readDigits]
  | cons c rest ih =>
    intro a h
    have hc : isd c = true := h c (by simp)
    simp only [readDigits, hc, if_pos, List.foldl_cons]
    exact ih _ (fun x hx => h x (by simp [hx]))

theorem isDecDigit_not_space (c : Char) (h : isDecDigit c = true) :
    c_isspace c = false := by
  by_contra hw
  rw [Bool.not_eq_false] at hw
  simp only [c_isspace, Bool.or_eq_true, decide_eq_true_eq] at hw
  rcases hw with ((((h1 | h2) | h3) | h4) | h5) | h6 <;>
    first
      | (subst h1; simp [isDecDigit] at h)
      | (subst h2; simp [isDecDigit] at h)
      | (subst h3; simp [isDecDigit] at h)
      | (subst h4; simp [isDecDigit] at h)
      | (subst h5; simp [isDecDigit] at h)
      | (subst h6; simp [isDecDigit] at h)

theorem isDecDigit_ne_sign (c : Char) (h : isDecDigit c = true) :
    c ≠ '-' ∧ c ≠ '+' := by
  constructor <;> rintro rfl <;> simp [isDecDigit] at h

theorem isDecDigit_digitVal (c : Char) (h : isDecDigit c = true) :
    digitVal c = c.toNat - '0'.toNat := by
  simp [digitVal, h]

theorem foldl_digitVal_eq_dec (l : Str) :
    ∀ a : Nat, (∀ c ∈ l, isDecDigit c = true) →
      l.foldl (fun x c => 10 * x + digitVal c) a
        = l.foldl (fun x c => 10 * x + (c.toNat - '0'.toNat)) a := by
  induction l with
  | nil => intro a _; rfl
  | cons c rest ih =>
    intro a h
    simp only [List.foldl_cons, isDecDigit_digitVal c (h c (by simp))]
    exact ih _ (fun x hx => h x (by simp [hx]))

theorem strtoCore_decimal (s : Str) (hne : s ≠ []) (h0 : s.head? ≠ some '0')
    (hall : ∀ c ∈ s, isDecDigit c = true) :
    strtoCore s = some (false, dec_value s, []) := by
  cases s with
  | nil => exact absurd rfl hne
  | cons c0 t =>
    have hd : isDecDigit c0 = true := hall c0 (by simp)
    have hc0 : c0 ≠ '0' := by
      intro h; exact h0 (by simp [h])
    obtain ⟨hminus, hplus⟩ := isDecDigit_ne_sign c0 hd
    have hsp : c_isspace c0 = false := isDecDigit_not_space c0 hd
    simp only [strtoCore, List.dropWhile_cons, hsp, Bool.false_eq_true, if_false,
      if_neg hminus, if_neg hplus, if_neg hc0, hd, if_pos, if_true]
    rw [readDigits_all isDecDigit 10 (c0 :: t) 0 hall]
    rw [foldl_digitVal_eq_dec (c0 :: t) 0 hall]
    rfl

theorem int_of_long_small (z : Int) (h1 : -(2 ^ 31) ≤ z) (h2 : z < 2 ^ 31) :
    int_of_long z = z := by
  have e1 : (2 : Int) ^ 31 = 2147483648 := by norm_num
  have e2 : (2 : Int) ^ 32 = 4294967296 := by norm_num
  unfold int_of_long
  rw [e1, e2] at *
  rw [Int.emod_eq_of_lt (by omega) (by omega)]
  omega

/-- C5: `config_get_int` returns the base-auto-detected `strtol` parse of
the stored value when the parse consumes the whole text, the caller default
when trailing characters remain, and the default unchanged when the entry is
absent; a pure decimal value within `int` range is returned exactly. -/
theorem c5_get_int_full_or_default (c : config_t) (s k : Str) (d : Int) :
    (entry_find c s k = none → config_get_int c s k d = d) ∧
    (∀ e, entry_find c s k = some e →
      ((strtol e.value).2 = [] →
        config_get_int c s k d = int_of_long (strtol e.value).1) ∧
      ((strtol e.value).2 ≠ [] → config_get_int c s k d = d) ∧
      (e.value ≠ [] → e.value.head? ≠ some '0' →
        (∀ ch ∈ e.value, isDecDigit ch = true) → dec_value e.value < 2 ^ 31 →
        config_get_int c s k d = (dec_value e.value : Int))) := by
  constructor
  · intro h
    simp [config_get_int, h]
  · intro e he
    refine ⟨?_, ?_, ?_⟩
    · intro hrest
      simp [config_get_int, he, hrest]
    · intro hrest
      simp [config_get_int, he, hrest]
    · intro hne h0 hall hlt
      have hcore := strtoCore_decimal e.value hne h0 hall
      have hval : strtol e.value = ((dec_value e.value : Int), []) := by
        have hm : dec_value e.value < 2147483648 := by
          calc dec_value e.value < 2 ^ 31 := hlt
            _ = 2147483648 := by norm_num
        simp only [strtol, hcore, Bool.false_eq_true, if_false]
        rw [if_neg]
        have e2 : (2 : Int) ^ 63 - 1 = 9223372036854775807 := by norm_num
        rw [e2]
        omega
      simp only [config_get_int, he, hval, if_true]
      exact int_of_long_small _
        (le_trans (by norm_num) (Int.natCast_nonneg _)) (by exact_mod_cast hlt)

theorem c5_get_int_full_or_default_witness :
    (strtol "42".data).2 = [] ∧
    config_get_int (config_set_string config_new_empty "N".data "k".data "42".data)
        "N".data "k".data 7 = int_of_long (strtol "42".data).1 :=
  ⟨by decide,
    ((c5_get_int_full_or_default
        (config_set_string config_new_empty "N".data "k".data "42".data)
        "N".data "k".data 7).2 ⟨"k".data, "42".data⟩ (by decide)).1 (by decide)⟩

/-- C9: an entry whose stored value is the empty string makes the numeric
getters return 0 for every caller-supplied default: parsing the empty text
consumes the entire (empty) value, so the default is not used even though no
digit was read. -/
theorem c9_empty_value_returns_zero (c : config_t) (s k : Str)
    (d : Int) (d16 d64 : Nat) :
    ∀ e, entry_find c s k = some e → e.value = [] →
      config_get_int c s k d = 0 ∧ config_get_uint16 c s k d16 = 0 ∧
      config_get_uint64 c s k d64 = 0 := by
  intro e he hv
  have hcore : strtoCore ([] : Str) = none := rfl
  have hint : int_of_long 0 = 0 := by decide
  refine ⟨?_, ?_, ?_⟩ <;>
    simp [config_get_int, config_get_uint16, config_get_uint64, he, hv,
      strtol, strtoumax, strtoull, hcore, hint]

theorem c9_empty_value_returns_zero_witness :
    entry_find (config_set_string config_new_empty "S".data "k".data [])
        "S".data "k".data = some ⟨"k".data, []⟩ ∧
    (config_get_int (config_set_string config_new_empty "S".data "k".data [])
        "S".data "k".data 7 = 0 ∧
      config_get_uint16 (config_set_string config_new_empty "S".data "k".data [])
        "S".data "k".data 9 = 0 ∧
      config_get_uint64 (config_set_string config_new_empty "S".data "k".data [])
        "S".data "k".data 11 = 0) :=
  ⟨by decide,
    c9_empty_value_returns_zero _ "S".data "k".data 7 9 11 ⟨"k".data, []⟩ (by decide) rfl⟩

/-- C6 counterexample: with stored value `"65536"` and default 7,
`config_get_uint16` returns 0 — a modulo-`2 ^ 16` truncated result that is
neither the full integer 65536 denoted by the stored text nor the caller
default. -/
theorem c6_uint16_truncated_counterexample :
    config_get_uint16 (config_set_string config_new_empty "A".data "k".data "65536".data)
        "A".data "k".data 7 = 0 ∧
    ¬(config_get_uint16 (config_set_string config_new_empty "A".data "k".data "65536".data)
          "A".data "k".data 7 = 65536 ∨
      config_get_uint16 (config_set_string config_new_empty "A".data "k".data "65536".data)
          "A".data "k".data 7 = 7) := by
  decide

/-- C6 (amended): `config_get_uint16` returns the caller default when the
entry is absent or when the parse leaves trailing characters; when the parse
consumes the whole value it returns the `strtoumax` result reduced modulo
`2 ^ 16` — so a stored text denoting an integer above 65535 yields a
truncated value, not the full integer and not the default.  A pure decimal
value of at most 65535 is returned exactly. -/
theorem c6_get_uint16_mod_or_default (c : config_t) (s k : Str) (d : Nat) :
    (entry_find c s k = none → config_get_uint16 c s k d = d) ∧
    (∀ e, entry_find c s k = some e →
      ((strtoumax e.value).2 = [] →
        config_get_uint16 c s k d = (strtoumax e.value).1 % 2 ^ 16) ∧
      ((strtoumax e.value).2 ≠ [] → config_get_uint16 c s k d = d) ∧
      (e.value ≠ [] → e.value.head? ≠ some '0' →
        (∀ ch ∈ e.value, isDecDigit ch = true) → dec_value e.value ≤ 65535 →
        config_get_uint16 c s k d = dec_value e.value)) := by
  constructor
  · intro h
    simp [config_get_uint16, h]
  · intro e he
    refine ⟨?_, ?_, ?_⟩
    · intro hrest
      simp [config_get_uint16, he, hrest]
    · intro hrest
      simp [config_get_uint16, he, hrest]
    · intro hne h0 hall hle
      have hcore := strtoCore_decimal e.value hne h0 hall
      have hval : strtoumax e.value = (dec_value e.value, []) := by
        simp only [strtoumax, hcore, Bool.false_eq_true, if_false]
        rw [if_neg]
        have e64 : (2 : Nat) ^ 64 = 18446744073709551616 := by norm_num
        rw [e64]
        omega
      simp only [config_get_uint16, he, hval, if_true]
      have e16 : (2 : Nat) ^ 16 = 65536 := by norm_num
      rw [e16]
      exact Nat.mod_eq_of_lt (by omega)

theorem c6_get_uint16_mod_or_default_witness :
    (strtoumax "65536".data).2 = [] ∧
    config_get_uint16 (config_set_string config_new_empty "A".data "k".data "65536".data)
        "A".data "k".data 7 = (strtoumax "65536".data).1 % 2 ^ 16 :=
  ⟨by decide,
    ((c6_get_uint16_mod_or_default
        (config_set_string config_new_empty "A".data "k".data "65536".data)
        "A".data "k".data 7).2 ⟨"k".data, "65536".data⟩ (by decide)).1 (by decide)⟩

/-- C2 counterexample: when the `fsync` on the temporary file fails and every
other step succeeds, `config_save` still returns `true` — the failure of this
sync step is only a logged warning, so the directory `fsync` is not the sole
non-fatal step, contrary to the claim. -/
theorem c2_file_fsync_failure_still_succeeds :
    (⟨true, true, true, true, false, true, true, true, true, true⟩ : save_env).fsync_file_ok
        = false ∧
    (config_save_io ⟨true, true, true, true, false, true, true, true, true, true⟩
        config_new_empty ⟨none, none⟩).1 = true := by
  decide

/-- C2 (amended): `config_save` returns `true` exactly when the `dirname`,
directory `open`, temp `fopen`, the writes, the temp `fclose`, `chmod`,
`rename` and the directory `close` all succeed — the two `fsync` outcomes
(temp file and directory) never affect the result.  On success the target
holds the serialized text and the temporary file is gone.  On failure the
temporary file is always deleted; the target is untouched unless every step
up to and including `rename` succeeded (failure then lies in the directory
`close`), in which case the target has already been replaced. -/
theorem c2_save_commit_protocol (env : save_env) (c : config_t) (fs : fs_state) :
    ((config_save_io env c fs).1 = true ↔
      (env.dirname_ok ∧ env.open_dir_ok ∧ env.fopen_ok ∧ env.write_ok ∧
        env.fclose_ok ∧ env.chmod_ok ∧ env.rename_ok ∧ env.close_dir_ok)) ∧
    ((config_save_io env c fs).1 = true →
      (config_save_io env c fs).2 = ⟨some (config_save_string c), none⟩) ∧
    ((config_save_io env c fs).1 = false →
      (config_save_io env c fs).2.temp = none ∧
      ((env.dirname_ok ∧ env.open_dir_ok ∧ env.fopen_ok ∧ env.write_ok ∧
          env.fclose_ok ∧ env.chmod_ok ∧ env.rename_ok) →
        (config_save_io env c fs).2.target = some (config_save_string c)) ∧
      (¬(env.dirname_ok ∧ env.open_dir_ok ∧ env.fopen_ok ∧ env.write_ok ∧
          env.fclose_ok ∧ env.chmod_ok ∧ env.rename_ok) →
        (config_save_io env c fs).2.target = fs.target)) := by
  obtain ⟨d, od, fo, w, sf, fc, ch, rn, sd, cd⟩ := env
  cases d <;> cases od <;> cases fo <;> cases w <;> cases fc <;> cases ch <;>
    cases rn <;> cases cd <;>
    simp [config_save_io, save_error]

theorem c2_save_commit_protocol_witness :
    (config_save_io ⟨true, true, true, true, true, true, true, true, true, true⟩
        config_new_empty ⟨none, none⟩).2
      = ⟨some (config_save_string config_new_empty), none⟩ :=
  (c2_save_commit_protocol ⟨true, true, true, true, true, true, true, true, true, true⟩
      config_new_empty ⟨none, none⟩).2.1 (by decide)

theorem config_save_text_ne_nil (ss : List section_t) (sec : section_t)
    (h : section_text sec ≠ []) : config_save_text (ss ++ [sec]) ≠ [] := by
  induction ss with
  | nil => simpa [config_save_text] using h
  | cons s rest ih =>
    cases hr : rest ++ [sec] with
    | nil => exact absurd hr (by simp)
    | cons a l =>
      simp only [List.cons_append, config_save_text, hr]
      rw [← hr]
      simp

theorem config_save_text_getLast_append (ss : List section_t) (sec : section_t)
    (h : section_text sec ≠ []) :
    (config_save_text (ss ++ [sec])).getLast? = (section_text sec).getLast? := by
  induction ss with
  | nil => simp [config_save_text]
  | cons s rest ih =>
    cases hr : rest ++ [sec] with
    | nil => exact absurd hr (by simp)
    | cons a l =>
      simp only [List.cons_append, config_save_text, hr]
      rw [← hr]
      rw [List.getLast?_append_cons]
      cases hx : config_save_text (rest ++ [sec]) with
      | nil => exact absurd hx (config_save_text_ne_nil rest sec h)
      | cons b l =>
        rw [List.getLast?_cons_cons, ← hx]
        exact ih

/-- C10: a comment pseudo-section (name beginning with `'#'`, owning no
entries) is serialized as exactly its stored name with no appended newline;
when another section follows, the single separator `'\n'` is what terminates
the comment line (no blank line after a comment), and a store whose last
section is a comment pseudo-section yields a file that does not end with a
newline. -/
theorem c10_comment_section_serialization (name : Str) (h : name.head? = some '#') :
    section_text ⟨name, []⟩ = name ∧
    (∀ rest, rest ≠ [] →
      config_save_text (⟨name, []⟩ :: rest) = name ++ '\n' :: config_save_text rest) ∧
    (∀ ss, name.getLast? ≠ some '\n' →
      (config_save_string ⟨ss ++ [⟨name, []⟩]⟩).getLast? ≠ some '\n') := by
  have htext : section_text ⟨name, []⟩ = name := by
    simp [section_text, h]
  refine ⟨htext, ?_, ?_⟩
  · intro rest hrest
    cases rest with
    | nil => exact absurd rfl hrest
    | cons r rs => simp [config_save_text, htext]
  · intro ss hlast
    have hne : section_text ⟨name, []⟩ ≠ [] := by
      rw [htext]
      intro hnil
      rw [hnil] at h
      simp at h
    rw [config_save_string]
    rw [config_save_text_getLast_append ss ⟨name, []⟩ hne, htext]
    exact hlast

theorem c10_comment_section_serialization_witness :
    section_text ⟨"# note".data, []⟩ = "# note".data ∧
    (config_save_string ⟨[⟨"A".data, [⟨"k".data, "v".data⟩]⟩] ++ [⟨"# note".data, []⟩]⟩).getLast?
      ≠ some '\n' :=
  ⟨(c10_comment_section_serialization "# note".data (by decide)).1,
    (c10_comment_section_serialization "# note".data (by decide)).2.2
      [⟨"A".data, [⟨"k".data, "v".data⟩]⟩] (by decide)⟩

/-- The structural invariant of a store (spec section 3): section names are
unique and entry keys are unique within each section. -/
def config_uniq (c : config_t) : Prop :=
  (c.sections.map (fun s => s.name)).Nodup ∧
  ∀ s ∈ c.sections, (s.entries.map (fun e => e.key)).Nodup

instance (c : config_t) : Decidable (config_uniq c) := by
  unfold config_uniq
  infer_instance

theorem keys_entry_list_set (es : List entry_t) (k v : Str) :
    (entry_list_set es k v).map (fun e => e.key)
      = if k ∈ es.map (fun e => e.key) then es.map (fun e => e.key)
        else es.map (fun e => e.key) ++ [k] := by
  induction es with
  | nil => simp [entry_list_set]
  | cons e rest ih =>
    by_cases h : e.key = k
    · simp [entry_list_set, h]
    · have hne : ¬(k = e.key) := fun hk => h hk.symm
      simp only [entry_list_set, if_neg h, List.map_cons, ih, List.mem_cons, hne,
        false_or]
      by_cases hm : k ∈ rest.map (fun e => e.key) <;> simp [hm]

theorem names_section_list_set (ss : List section_t) (s k v : Str) :
    (section_list_set ss s k v).map (fun t => t.name)
      = if s ∈ ss.map (fun t => t.name) then ss.map (fun t => t.name)
        else ss.map (fun t => t.name) ++ [s] := by
  induction ss with
  | nil => simp [section_list_set]
  | cons hd tl ih =>
    by_cases h : hd.name = s
    · simp [section_list_set, h]
    · have hne : ¬(s = hd.name) := fun hk => h hk.symm
      simp only [section_list_set, if_neg h, List.map_cons, ih, List.mem_cons, hne,
        false_or]
      by_cases hm : s ∈ tl.map (fun t => t.name) <;> simp [hm]

theorem section_list_set_mem_named (ss : List section_t) (s k v : Str)
    (hnd : (ss.map (fun t => t.name)).Nodup) (sec' : section_t)
    (hmem : sec' ∈ section_list_set ss s k v) (hname : sec'.name = s) :
    (∃ sec ∈ ss, sec.name = s ∧ sec' = ⟨sec.name, entry_list_set sec.entries k v⟩) ∨
    (s ∉ ss.map (fun t => t.name) ∧ sec' = ⟨s, [⟨k, v⟩]⟩) := by
  induction ss with
  | nil =>
    right
    simp only [section_list_set, List.mem_singleton] at hmem
    exact ⟨by simp, hmem⟩
  | cons hd tl ih =>
    simp only [List.map_cons, List.nodup_cons] at hnd
    by_cases h : hd.name = s
    · rw [section_list_set, if_pos h] at hmem
      rcases List.mem_cons.mp hmem with heq | htl
      · exact Or.inl ⟨hd, by simp, h, heq⟩
      · exfalso
        apply hnd.1
        rw [h, ← hname]
        exact List.mem_map.mpr ⟨sec', htl, rfl⟩
    · rw [section_list_set, if_neg h] at hmem
      rcases List.mem_cons.mp hmem with heq | htl
      · exact absurd (heq ▸ hname) h
      · rcases ih hnd.2 htl with ⟨sec, hsec, hn, he⟩ | ⟨hnm, he⟩
        · exact Or.inl ⟨sec, by simp [hsec], hn, he⟩
        · refine Or.inr ⟨?_, he⟩
          simp only [List.map_cons, List.mem_cons]
          rintro (hc | hc)
          · exact h hc.symm
          · exact hnm hc

theorem mem_section_list_set (ss : List section_t) (s k v : Str) (sec' : section_t)
    (hmem : sec' ∈ section_list_set ss s k v) :
    sec' ∈ ss ∨ (∃ sec ∈ ss, sec' = ⟨sec.name, entry_list_set sec.entries k v⟩) ∨
      sec' = ⟨s, [⟨k, v⟩]⟩ := by
  induction ss with
  | nil =>
    simp only [section_list_set, List.mem_singleton] at hmem
    exact Or.inr (Or.inr hmem)
  | cons hd tl ih =>
    by_cases h : hd.name = s
    · rw [section_list_set, if_pos h] at hmem
      rcases List.mem_cons.mp hmem with heq | htl
      · exact Or.inr (Or.inl ⟨hd, by simp, heq⟩)
      · exact Or.inl (by simp [htl])
    · rw [section_list_set, if_neg h] at hmem
      rcases List.mem_cons.mp hmem with heq | htl
      · exact Or.inl (by simp [heq])
      · rcases ih htl with hm | ⟨sec, hsec, he⟩ | he
        · exact Or.inl (by simp [hm])
        · exact Or.inr (Or.inl ⟨sec, by simp [hsec], he⟩)
        · exact Or.inr (Or.inr he)

theorem nodup_keys_entry_list_set (es : List entry_t) (k v : Str)
    (h : (es.map (fun e => e.key)).Nodup) :
    ((entry_list_set es k v).map (fun e => e.key)).Nodup := by
  rw [keys_entry_list_set]
  split
  · exact h
  · next hm => simp [List.nodup_append, h, hm]

theorem countP_entry_list_set (es : List entry_t) (k v : Str)
    (h : (es.map (fun e => e.key)).Nodup) :
    (entry_list_set es k v).countP (fun e => e.key == k) = 1 := by
  induction es with
  | nil => simp [entry_list_set]
  | cons e rest ih =>
    simp only [List.map_cons, List.nodup_cons] at h
    by_cases hk : e.key = k
    · have hz : rest.countP (fun e => e.key == k) = 0 := by
        rw [List.countP_eq_zero]
        intro a ha
        simp only [beq_iff_eq]
        intro hak
        exact h.1 (by rw [hk, ← hak]; exact List.mem_map.mpr ⟨a, ha, rfl⟩)
      simp [entry_list_set, hk, List.countP_cons, hz]
    · simp [entry_list_set, hk, List.countP_cons, ih h.2]

theorem config_uniq_set (c : config_t) (s k v : Str) (h : config_uniq c) :
    config_uniq (config_set_string c s k v) := by
  obtain ⟨hnames, hkeys⟩ := h
  constructor
  · show ((section_list_set c.sections s k (value_no_newline v)).map _).Nodup
    rw [names_section_list_set]
    split
    · exact hnames
    · next hm => simp [List.nodup_append, hnames, hm]
  · intro sec' hmem
    rcases mem_section_list_set c.sections s k (value_no_newline v) sec' hmem with
      hm | ⟨sec, hsec, rfl⟩ | rfl
    · exact hkeys sec' hm
    · exact nodup_keys_entry_list_set sec.entries _ _ (hkeys sec hsec)
    · simp

/-- C4: section names stay unique under `config_set_string` (a later set on
an existing section appends into it instead of duplicating it, a new section
name goes to the end), entry keys stay unique within each section (setting
an existing key replaces the value in place, preserving the entry's
position), and exactly one entry — carrying the last-set value — remains for
a repeatedly set (section, key) pair; any store built from the empty one by
a sequence of `config_set_string` calls satisfies the invariant. -/
theorem c4_uniqueness_invariant :
    (∀ ops : List (Str × Str × Str),
      config_uniq (ops.foldl (fun c o => config_set_string c o.1 o.2.1 o.2.2)
        config_new_empty)) ∧
    (∀ (c : config_t) (s k v : Str), config_uniq c →
      config_uniq (config_set_string c s k v) ∧
      ((config_set_string c s k v).sections.map (fun t => t.name)
        = if s ∈ c.sections.map (fun t => t.name) then c.sections.map (fun t => t.name)
          else c.sections.map (fun t => t.name) ++ [s]) ∧
      entry_find (config_set_string c s k v) s k = some ⟨k, value_no_newline v⟩ ∧
      (∀ sec' ∈ (config_set_string c s k v).sections, sec'.name = s →
        sec'.entries.countP (fun e => e.key == k) = 1 ∧
        (∀ sec ∈ c.sections, sec.name = s →
          sec'.entries.map (fun e => e.key)
            = if k ∈ sec.entries.map (fun e => e.key) then sec.entries.map (fun e => e.key)
              else sec.entries.map (fun e => e.key) ++ [k]))) := by
  constructor
  · intro ops
    have hgen : ∀ (l : List (Str × Str × Str)) (c : config_t), config_uniq c →
        config_uniq (l.foldl (fun c o => config_set_string c o.1 o.2.1 o.2.2) c) := by
      intro l
      induction l with
      | nil => exact fun c h => h
      | cons o rest ih =>
        intro c h
        exact ih _ (config_uniq_set c o.1 o.2.1 o.2.2 h)
    exact hgen ops config_new_empty (by constructor <;> simp [config_new_empty])
  · intro c s k v h
    refine ⟨config_uniq_set c s k v h, ?_, entry_find_set c s k v, ?_⟩
    · exact names_section_list_set c.sections s k (value_no_newline v)
    · intro sec' hmem hname
      rcases section_list_set_mem_named c.sections s k (value_no_newline v) h.1
          sec' hmem hname with ⟨sec, hsec, hn, rfl⟩ | ⟨hnm, rfl⟩
      · refine ⟨countP_entry_list_set sec.entries _ _ (h.2 sec hsec), ?_⟩
        intro sec₀ hsec₀ hn₀
        have : sec₀ = sec :=
          List.inj_on_of_nodup_map h.1 hsec₀ hsec (by rw [hn₀, hn])
        subst this
        exact keys_entry_list_set sec₀.entries k (value_no_newline v)
      · refine ⟨by simp, ?_⟩
        intro sec₀ hsec₀ hn₀
        exact absurd (hn₀ ▸ List.mem_map.mpr ⟨sec₀, hsec₀, rfl⟩) hnm

theorem c4_uniqueness_invariant_witness :
    config_uniq
      (config_set_string
        (config_set_string config_new_empty "A".data "k".data "1".data)
        "A".data "k".data "2".data) :=
  (c4_uniqueness_invariant.2
      (config_set_string config_new_empty "A".data "k".data "1".data)
      "A".data "k".data "2".data (by decide)).1

/-- All key/value entries stored anywhere in a config, in order. -/
def all_entries (c : config_t) : List entry_t :=
  (c.sections.map (fun s => s.entries)).flatten

/-- A trimmed line that the parser accepts as a section header: it starts
with `'['` and its last character is `']'` (config.cc lines 572-581). -/
def good_header (t : Str) : Bool :=
  match t with
  | [] => false
  | c :: rest => c = '[' && List.getLastD rest c = ']'

/-- A trimmed line that triggers the unterminated-section branch: it starts
with `'['` but does not end with `']'` (config.cc lines 574-578). -/
def bad_header (t : Str) : Bool :=
  match t with
  | [] => false
  | c :: rest => c = '[' && !(List.getLastD rest c = ']')

theorem skip_state_step (st : parse_state) (chunk : Str)
    (hskip : st.skip_entries = true)
    (hng : good_header (trimChars chunk) = false) :
    all_entries (parse_line_step st chunk).config = all_entries st.config ∧
    (parse_line_step st chunk).sec = st.sec ∧
    (parse_line_step st chunk).skip_entries = true := by
  unfold parse_line_step
  cases htrim : trimChars chunk with
  | nil => exact ⟨rfl, rfl, hskip⟩
  | cons c rest =>
    by_cases hc : c = '#'
    · simp only [if_pos hc]
      unfold comment_step
      by_cases hcf : (section_find st.config (c :: rest)).isSome
      · rw [if_pos hcf]
        exact ⟨rfl, rfl, hskip⟩
      · rw [if_neg hcf]
        refine ⟨?_, rfl, hskip⟩
        simp [all_entries]
    · by_cases hb : c = '['
      · subst hb
        have hlast : ¬(List.getLastD rest '[' = ']') := by
          intro h
          rw [htrim] at hng
          rw [List.getLastD_eq_getLast?] at h
          simp [good_header, List.getLastD_eq_getLast?, h] at hng
        simp only [if_neg hc, if_pos rfl, if_pos hlast]
        exact ⟨rfl, rfl, rfl⟩
      · simp only [if_neg hc, if_neg hb, if_pos hskip]
        exact ⟨trivial, trivial, hskip⟩

theorem skip_state_foldl (lines : List Str) :
    ∀ st : parse_state, st.skip_entries = true →
      (∀ l ∈ lines, good_header (trimChars l) = false) →
      all_entries ((lines.foldl parse_line_step st).config) = all_entries st.config ∧
      (lines.foldl parse_line_step st).sec = st.sec ∧
      (lines.foldl parse_line_step st).skip_entries = true := by
  induction lines with
  | nil => exact fun st h _ => ⟨rfl, rfl, h⟩
  | cons l ls ih =>
    intro st hskip hall
    simp only [List.foldl_cons]
    obtain ⟨h1, h2, h3⟩ := skip_state_step st l hskip (hall l (by simp))
    obtain ⟨g1, g2, g3⟩ := ih (parse_line_step st l) h3 (fun x hx => hall x (by simp [hx]))
    exact ⟨g1.trans h1, g2.trans h2, g3⟩

/-- C7: a line whose trimmed text starts with `'['` but does not end with
`']'` leaves the config and the current section name unchanged and sets
`skip_entries`; while `skip_entries` is set, no sequence of lines free of
well-formed `[...]` headers can add a key/value entry to the store (or change
the current section, or clear the flag); and a well-formed header clears
`skip_entries`. -/
theorem c7_malformed_header_skip :
    (∀ (st : parse_state) (chunk : Str), bad_header (trimChars chunk) = true →
      parse_line_step st chunk = { st with skip_entries := true }) ∧
    (∀ (st : parse_state) (chunk : Str), good_header (trimChars chunk) = true →
      (parse_line_step st chunk).skip_entries = false ∧
      (parse_line_step st chunk).config = st.config) ∧
    (∀ (lines : List Str) (st : parse_state), st.skip_entries = true →
      (∀ l ∈ lines, good_header (trimChars l) = false) →
      all_entries ((lines.foldl parse_line_step st).config) = all_entries st.config ∧
      (lines.foldl parse_line_step st).sec = st.sec ∧
      (lines.foldl parse_line_step st).skip_entries = true) := by
  refine ⟨?_, ?_, fun lines st h hall => skip_state_foldl lines st h hall⟩
  · intro st chunk hbad
    unfold parse_line_step
    cases htrim : trimChars chunk with
    | nil =>
      rw [htrim] at hbad
      simp [bad_header] at hbad
    | cons c rest =>
      rw [htrim] at hbad
      simp only [bad_header, Bool.and_eq_true, decide_eq_true_eq, Bool.not_eq_true',
        decide_eq_false_iff_not] at hbad
      obtain ⟨hb, hlast0⟩ := hbad
      subst hb
      have hc : ¬('[' = '#') := by decide
      simp only [if_neg hc, if_pos rfl, if_pos hlast0]
      exact if_pos trivial
  · intro st chunk hgood
    unfold parse_line_step
    cases htrim : trimChars chunk with
    | nil =>
      rw [htrim] at hgood
      simp [good_header] at hgood
    | cons c rest =>
      rw [htrim] at hgood
      simp only [good_header, Bool.and_eq_true, decide_eq_true_eq] at hgood
      obtain ⟨hb, hlast0⟩ := hgood
      subst hb
      have hc : ¬('[' = '#') := by decide
      have hnn : ¬(List.getLastD rest '[' ≠ ']') := fun hh => hh hlast0
      simp only [if_neg hc, if_pos rfl, if_neg hnn]
      exact ⟨rfl, rfl⟩

theorem c7_malformed_header_skip_witness :
    bad_header (trimChars "[bad".data) = true ∧
    parse_line_step ⟨config_new_empty, "Global".data, false⟩ "[bad".data
      = ⟨config_new_empty, "Global".data, true⟩ ∧
    all_entries
      (([" key = value\n".data].foldl parse_line_step
          ⟨config_new_empty, "Global".data, true⟩).config)
      = all_entries config_new_empty :=
  ⟨by decide,
    c7_malformed_header_skip.1 ⟨config_new_empty, "Global".data, false⟩ "[bad".data
      (by decide),
    (c7_malformed_header_skip.2.2 [" key = value\n".data]
        ⟨config_new_empty, "Global".data, true⟩ rfl (by decide)).1⟩

/-- C8 (behaviour at the failing input): the physical line `aaa…a = v`
(1022 `'a'`s followed by `" = v"`, 1026 characters before its newline) is
longer than 1023 characters, yet the parser does not skip it: `fgets` splits
it at the 1023-character boundary, the chunk ends in a space that the
in-place `trim` removes before the `strlen` check, so the check does not
fire, and the tail `= v` of the same physical line is then read as a line of
its own — producing the entry `("", "v")` in the default section.
Conversely a line of exactly 1023 characters (not longer than the maximum)
is skipped in its entirety. -/
theorem c8_long_line_produces_entry :
    ('\n' ∉ List.replicate 1022 'a' ++ " = v".data) ∧
    (List.replicate 1022 'a' ++ " = v".data).length = 1026 ∧
    config_new_text ((List.replicate 1022 'a' ++ " = v".data) ++ ['\n'])
      = ⟨[⟨CONFIG_DEFAULT_SECTION, [⟨[], "v".data⟩]⟩]⟩ ∧
    ("k = ".data ++ List.replicate 1019 'v').length = 1023 ∧
    config_new_text (("k = ".data ++ List.replicate 1019 'v') ++ ['\n'])
      = config_new_empty :=
  ⟨by decide, by decide, by decide, by decide, by decide⟩

/-- `true` when the first character (if any) is not `isspace`: the shape of
keys and values that the parser's `trim` leaves unchanged. -/
def head_not_ws (s : Str) : Bool :=
  match s with
  | [] => true
  | c :: _ => !c_isspace c

/-- Keys that `config_save` writes and `config_parse` reads back verbatim:
nonempty, no surrounding whitespace, no newline, no `'='`, and not starting
with `'#'` or `'['`. -/
def save_key_ok (k : Str) : Prop :=
  head_not_ws k = true ∧ head_not_ws k.reverse = true ∧ k ≠ [] ∧
  '\n' ∉ k ∧ '=' ∉ k ∧ k.head? ≠ some '#' ∧ k.head? ≠ some '['

/-- Values that survive the round trip verbatim: nonempty, no surrounding
whitespace and no newline. -/
def save_value_ok (v : Str) : Prop :=
  head_not_ws v = true ∧ head_not_ws v.reverse = true ∧ v ≠ [] ∧ '\n' ∉ v

/-- Sections that `config_save` writes and `config_parse` reads back
verbatim: a non-comment newline-free name short enough for the parser's line
limit, at least one entry, unique keys, and well-formed keys and values on
lines short enough for the limit. -/
def section_save_ok (s : section_t) : Prop :=
  s.name.head? ≠ some '#' ∧ '\n' ∉ s.name ∧ s.name.length ≤ 1019 ∧
  s.entries ≠ [] ∧ (s.entries.map (fun e => e.key)).Nodup ∧
  ∀ e ∈ s.entries, save_key_ok e.key ∧ save_value_ok e.value ∧
    e.key.length + e.value.length ≤ 1018

def config_save_ok (c : config_t) : Prop :=
  (c.sections.map (fun s => s.name)).Nodup ∧ ∀ s ∈ c.sections, section_save_ok s

instance (k : Str) : Decidable (save_key_ok k) := by
  unfold save_key_ok
  infer_instance

instance (v : Str) : Decidable (save_value_ok v) := by
  unfold save_value_ok
  infer_instance

instance (s : section_t) : Decidable (section_save_ok s) := by
  unfold section_save_ok
  infer_instance

instance (c : config_t) : Decidable (config_save_ok c) := by
  unfold config_save_ok
  infer_instance

theorem value_no_newline_of_not_mem (v : Str) (h : '\n' ∉ v) :
    value_no_newline v = v := by
  rw [value_no_newline_eq_takeWhile, List.takeWhile_eq_self_iff]
  intro ch hch
  simp only [Bool.not_eq_true', beq_eq_false_iff_ne, ne_eq]
  intro hc
  exact h (hc ▸ hch)

theorem dropWhile_ws_head (s : Str) (h : head_not_ws s = true) :
    s.dropWhile c_isspace = s := by
  cases s with
  | nil => rfl
  | cons c rest =>
    simp only [head_not_ws, Bool.not_eq_true'] at h
    simp [List.dropWhile_cons, h]

theorem trimChars_of_edges (s : Str) (h1 : head_not_ws s = true)
    (h2 : head_not_ws s.reverse = true) : trimChars s = s := by
  unfold trimChars
  rw [dropWhile_ws_head s h1, dropWhile_ws_head s.reverse h2, List.reverse_reverse]

theorem trim_key_space (k : Str) (h1 : head_not_ws k = true)
    (h2 : head_not_ws k.reverse = true) (hne : k ≠ []) :
    trimChars (k ++ [' ']) = k := by
  unfold trimChars
  have hl : (k ++ [' ']).dropWhile c_isspace = k ++ [' '] := by
    cases k with
    | nil => exact absurd rfl hne
    | cons c rest =>
      simp only [head_not_ws, Bool.not_eq_true'] at h1
      simp [List.dropWhile_cons, h1]
  rw [hl, List.reverse_append]
  show (((' ' :: k.reverse).dropWhile c_isspace)).reverse = k
  rw [List.dropWhile_cons]
  rw [if_pos (by decide)]
  rw [dropWhile_ws_head k.reverse h2, List.reverse_reverse]

theorem trim_space_value (v : Str) (h1 : head_not_ws v = true)
    (h2 : head_not_ws v.reverse = true) : trimChars (' ' :: v) = v := by
  unfold trimChars
  rw [List.dropWhile_cons, if_pos (by decide), dropWhile_ws_head v h1]
  rw [dropWhile_ws_head v.reverse h2, List.reverse_reverse]

theorem trim_entry_line (k v : Str) (hk1 : head_not_ws k = true) (hknil : k ≠ [])
    (hv2 : head_not_ws v.reverse = true) (hvnil : v ≠ []) :
    trimChars (k ++ ' ' :: '=' :: ' ' :: (v ++ ['\n']))
      = k ++ ' ' :: '=' :: ' ' :: v := by
  unfold trimChars
  have hl : (k ++ ' ' :: '=' :: ' ' :: (v ++ ['\n'])).dropWhile c_isspace
      = k ++ ' ' :: '=' :: ' ' :: (v ++ ['\n']) := by
    cases k with
    | nil => exact absurd rfl hknil
    | cons c rest =>
      simp only [head_not_ws, Bool.not_eq_true'] at hk1
      simp [List.dropWhile_cons, hk1]
  rw [hl]
  have hrev : (k ++ ' ' :: '=' :: ' ' :: (v ++ ['\n'])).reverse
      = '\n' :: (v.reverse ++ (' ' :: '=' :: ' ' :: k.reverse)) := by
    simp
  rw [hrev, List.dropWhile_cons, if_pos (by decide)]
  have hstop : (v.reverse ++ (' ' :: '=' :: ' ' :: k.reverse)).dropWhile c_isspace
      = v.reverse ++ (' ' :: '=' :: ' ' :: k.reverse) := by
    cases hv : v.reverse with
    | nil => exact absurd (by simpa using congrArg List.reverse hv) hvnil
    | cons d w =>
      rw [hv] at hv2
      simp only [head_not_ws, Bool.not_eq_true'] at hv2
      simp [List.dropWhile_cons, hv2]
  rw [hstop]
  simp

theorem findIdx?_append_start (p : Char → Bool) (l : List Char) :
    ∀ (i : Nat) (r : List Char), (∀ c ∈ l, p c = false) →
      List.findIdx? p (l ++ r) i = List.findIdx? p r (i + l.length) := by
  induction l with
  | nil => intro i r _; simp
  | cons c rest ih =>
    intro i r h
    rw [List.cons_append, List.findIdx?_cons, if_neg (by simp [h c (by simp)])]
    rw [ih (i + 1) r (fun x hx => h x (by simp [hx]))]
    congr 1
    simp
    omega

theorem blank_line_step (st : parse_state) : parse_line_step st ['\n'] = st := rfl

theorem header_line_step (st : parse_state) (name : Str) :
    parse_line_step st ('[' :: (name ++ (']' :: '\n' :: [])))
      = ⟨st.config, name, false⟩ := by
  have htrim : trimChars ('[' :: (name ++ (']' :: '\n' :: [])))
      = '[' :: (name ++ [']']) := by
    unfold trimChars
    rw [List.dropWhile_cons, if_neg (by decide)]
    have hrev : ('[' :: (name ++ (']' :: '\n' :: []))).reverse
        = '\n' :: ']' :: (name.reverse ++ ['[']) := by
      simp
    rw [hrev, List.dropWhile_cons, if_pos (by decide), List.dropWhile_cons,
      if_neg (by decide)]
    simp
  unfold parse_line_step
  rw [htrim]
  have hlast : List.getLastD (name ++ [']']) '[' = ']' := List.getLastD_concat _ _ _
  simp only [if_neg (by decide : ¬('[' = '#')), if_pos rfl, hlast,
    if_neg (by simp : ¬(']' ≠ ']'))]
  simp [List.dropLast_concat]

theorem kv_line_step (st : parse_state) (k v : Str)
    (hst : st.skip_entries = false)
    (hkey : save_key_ok k) (hval : save_value_ok v) :
    parse_line_step st (k ++ ' ' :: '=' :: ' ' :: (v ++ ['\n']))
      = ⟨config_set_string st.config st.sec k v, st.sec, st.skip_entries⟩ := by
  obtain ⟨hk1, hk2, hknil, hknl, hkeq, hkhash, hkbr⟩ := hkey
  obtain ⟨hv1, hv2, hvnil, hvnl⟩ := hval
  have htrim := trim_entry_line k v hk1 hknil hv2 hvnil
  unfold parse_line_step
  rw [htrim]
  obtain ⟨c, k', rfl⟩ : ∃ c k', k = c :: k' := by
    cases k with
    | nil => exact absurd rfl hknil
    | cons c k' => exact ⟨c, k', rfl⟩
  have hch : ¬(c = '#') := by
    intro h
    exact hkhash (by simp [h])
  have hcb : ¬(c = '[') := by
    intro h
    exact hkbr (by simp [h])
  simp only [List.cons_append, if_neg hch, if_neg hcb, hst, Bool.false_eq_true,
    if_false, if_neg (by simp [hst] : ¬(st.skip_entries = true))]
  have hidx : List.findIdx? (fun ch => ch == '=') ((c :: k') ++ ' ' :: '=' :: ' ' :: v) 0
      = some ((c :: k').length + 1) := by
    rw [findIdx?_append_start (fun ch => ch == '=') (c :: k') 0 (' ' :: '=' :: ' ' :: v)
      (fun x hx => by
        simp only [beq_eq_false_iff_ne, ne_eq]
        intro hxe
        exact hkeq (hxe ▸ hx))]
    rw [List.findIdx?_cons, if_neg (by decide), List.findIdx?_cons, if_pos (by decide)]
    congr 1
    omega
  unfold kv_split
  rw [List.cons_append] at hidx
  rw [hidx]
  dsimp only
  have htake : (c :: (k' ++ ' ' :: '=' :: ' ' :: v)).take ((c :: k').length + 1)
      = (c :: k') ++ [' '] := by
    show ((c :: k') ++ (' ' :: '=' :: ' ' :: v)).take ((c :: k').length + 1)
        = (c :: k') ++ [' ']
    rw [List.take_append 1]
    rfl
  have hdrop : (c :: (k' ++ ' ' :: '=' :: ' ' :: v)).drop ((c :: k').length + 1 + 1)
      = ' ' :: v := by
    show ((c :: k') ++ (' ' :: '=' :: ' ' :: v)).drop ((c :: k').length + 1 + 1)
        = ' ' :: v
    have hsplit : (c :: k') ++ ' ' :: '=' :: ' ' :: v
        = ((c :: k') ++ [' ', '=']) ++ (' ' :: v) := by simp
    have hlen : (c :: k').length + 1 + 1
        = ((c :: k') ++ ([' ', '='] : List Char)).length + 0 := by simp
    rw [hsplit, hlen, List.drop_append 0]
    rfl
  rw [htake, hdrop, trim_key_space (c :: k') hk1 hk2 hknil, trim_space_value v hv1 hv2]

theorem fgets_take_exact (content : Str) :
    ∀ (n : Nat) (rest : Str), '\n' ∉ content → content.length < n →
      fgets_take n (content ++ '\n' :: rest) = (content ++ ['\n'], rest) := by
  induction content with
  | nil =>
    intro n rest _ hn
    cases n with
    | zero => omega
    | succ m => simp [fgets_take]
  | cons c cs ih =>
    intro n rest hmem hn
    cases n with
    | zero => omega
    | succ m =>
      have hc : ¬(c = '\n') := by
        intro h
        exact hmem (by simp [h])
      simp only [List.cons_append, fgets_take, if_neg hc, List.append_eq]
      rw [ih m rest (fun h => hmem (by simp [h])) (by simpa using hn)]

theorem strlen_after_trim_le (s : Str) : strlen_after_trim s ≤ s.length := by
  unfold strlen_after_trim
  split
  · exact le_refl _
  · exact Nat.sub_le _ _

theorem split_lines_nil : split_lines [] = [] := rfl

theorem split_lines_cons (content rest : Str) (hmem : '\n' ∉ content)
    (hlen : content.length ≤ 1021) :
    split_lines (content ++ '\n' :: rest) = (content ++ ['\n']) :: split_lines rest := by
  rw [split_lines_eq _ (by simp)]
  rw [fgets_take_exact content 1023 rest hmem (by omega)]
  have hb : strlen_after_trim (content ++ ['\n']) ≤ 1022 := by
    refine le_trans (strlen_after_trim_le _) ?_
    simp
    omega
  have hcond : ¬(strlen_after_trim (content ++ ['\n']) = 1023) := by omega
  rw [if_neg hcond]

theorem split_lines_entry_block (es : List entry_t) :
    ∀ tail : Str,
      (∀ e ∈ es, '\n' ∉ e.key ∧ '\n' ∉ e.value ∧
        e.key.length + e.value.length ≤ 1018) →
      split_lines ((es.map entry_line_text).flatten ++ tail)
        = es.map entry_line_text ++ split_lines tail := by
  induction es with
  | nil => intro tail _; simp
  | cons e rest ih =>
    intro tail hok
    obtain ⟨hk, hv, hlen⟩ := hok e (by simp)
    have harr : entry_line_text e ++ ((rest.map entry_line_text).flatten ++ tail)
        = (e.key ++ ' ' :: '=' :: ' ' :: e.value)
            ++ '\n' :: ((rest.map entry_line_text).flatten ++ tail) := by
      simp [entry_line_text]
    have hchunk : (e.key ++ ' ' :: '=' :: ' ' :: e.value) ++ ['\n']
        = entry_line_text e := by
      simp [entry_line_text]
    have hmem2 : '\n' ∉ e.key ++ ' ' :: '=' :: ' ' :: e.value := by
      intro hm
      simp only [List.mem_append, List.mem_cons] at hm
      rcases hm with h | h | h | h | h
      · exact hk h
      · exact absurd h (by decide)
      · exact absurd h (by decide)
      · exact absurd h (by decide)
      · exact hv h
    have hlen2 : (e.key ++ ' ' :: '=' :: ' ' :: e.value).length ≤ 1021 := by
      simp
      omega
    simp only [List.map_cons, List.flatten_cons]
    rw [List.append_assoc, harr]
    rw [split_lines_cons _ _ hmem2 hlen2, hchunk]
    rw [ih tail (fun x hx => hok x (by simp [hx]))]
    simp

theorem split_lines_section_block (s : section_t) (tail : Str)
    (hok : section_save_ok s) :
    split_lines (section_text s ++ tail)
      = ('[' :: (s.name ++ (']' :: '\n' :: [])))
          :: (s.entries.map entry_line_text ++ split_lines tail) := by
  obtain ⟨hname, hnl, hlen, _, _, hes⟩ := hok
  have htext : section_text s
      = '[' :: (s.name ++ (']' :: '\n' :: [])) ++ (s.entries.map entry_line_text).flatten := by
    simp [section_text, hname]
  have harr : section_text s ++ tail
      = ('[' :: (s.name ++ [']']))
          ++ '\n' :: ((s.entries.map entry_line_text).flatten ++ tail) := by
    rw [htext]
    simp
  rw [harr]
  have hmem2 : '\n' ∉ '[' :: (s.name ++ [']']) := by
    intro hm
    simp only [List.mem_cons, List.mem_append, List.mem_singleton] at hm
    rcases hm with h | h | h
    · exact absurd h (by decide)
    · exact hnl h
    · exact absurd h (by decide)
  have hlen2 : ('[' :: (s.name ++ [']'])).length ≤ 1021 := by
    simp
    omega
  rw [split_lines_cons _ _ hmem2 hlen2]
  rw [split_lines_entry_block s.entries tail
    (fun e he => ⟨(hes e he).1.2.2.2.1, (hes e he).2.1.2.2.2, (hes e he).2.2⟩)]
  simp

theorem foldl_entry_lines (es : List entry_t)
    (hok : ∀ e ∈ es, save_key_ok e.key ∧ save_value_ok e.value) :
    ∀ (cfg : config_t) (nm : Str),
      (es.map entry_line_text).foldl parse_line_step ⟨cfg, nm, false⟩
        = ⟨es.foldl (fun c e => config_set_string c nm e.key e.value) cfg, nm, false⟩ := by
  induction es with
  | nil => intro cfg nm; rfl
  | cons e rest ih =>
    intro cfg nm
    obtain ⟨hkey, hval⟩ := hok e (by simp)
    simp only [List.map_cons, List.foldl_cons]
    rw [show (entry_line_text e) = e.key ++ ' ' :: '=' :: ' ' :: (e.value ++ ['\n']) from rfl]
    rw [kv_line_step ⟨cfg, nm, false⟩ e.key e.value rfl hkey hval]
    exact ih (fun x hx => hok x (by simp [hx])) _ nm

theorem entry_list_set_absent (es : List entry_t) (k v : Str)
    (h : k ∉ es.map (fun e => e.key)) :
    entry_list_set es k v = es ++ [⟨k, v⟩] := by
  induction es with
  | nil => rfl
  | cons e rest ih =>
    have hne : ¬(e.key = k) := by
      intro hk
      exact h (by simp [hk])
    simp only [entry_list_set, if_neg hne, List.cons_append]
    rw [ih (fun hm => h (by simp [hm]))]

theorem section_list_set_absent (ss : List section_t) (s k v : Str)
    (h : s ∉ ss.map (fun t => t.name)) :
    section_list_set ss s k v = ss ++ [⟨s, [⟨k, v⟩]⟩] := by
  induction ss with
  | nil => rfl
  | cons hd tl ih =>
    have hne : ¬(hd.name = s) := by
      intro hk
      exact h (by simp [hk])
    simp only [section_list_set, if_neg hne, List.cons_append]
    rw [ih (fun hm => h (by simp [hm]))]

theorem config_set_string_new_section (cfg : config_t) (s k v : Str)
    (hs : s ∉ cfg.sections.map (fun t => t.name)) (hv : '\n' ∉ v) :
    config_set_string cfg s k v = ⟨cfg.sections ++ [⟨s, [⟨k, v⟩]⟩]⟩ := by
  unfold config_set_string
  rw [value_no_newline_of_not_mem v hv, section_list_set_absent cfg.sections s k v hs]

theorem section_list_set_append_last (pre : List section_t) (s k v : Str)
    (es : List entry_t) (hs : s ∉ pre.map (fun t => t.name))
    (hk : k ∉ es.map (fun e => e.key)) :
    section_list_set (pre ++ [⟨s, es⟩]) s k v = pre ++ [⟨s, es ++ [⟨k, v⟩]⟩] := by
  induction pre with
  | nil =>
    simp only [List.nil_append, section_list_set]
    rw [if_pos trivial, entry_list_set_absent es k v hk]
  | cons hd tl ih =>
    have hne : ¬(hd.name = s) := by
      intro hh
      exact hs (by simp [hh])
    simp only [List.cons_append, section_list_set, if_neg hne, List.append_eq]
    rw [ih (fun hm => hs (by simp [hm]))]

theorem config_set_string_last_section (pre : List section_t) (s k v : Str)
    (es : List entry_t) (hs : s ∉ pre.map (fun t => t.name))
    (hk : k ∉ es.map (fun e => e.key)) (hv : '\n' ∉ v) :
    config_set_string ⟨pre ++ [⟨s, es⟩]⟩ s k v = ⟨pre ++ [⟨s, es ++ [⟨k, v⟩]⟩]⟩ := by
  unfold config_set_string
  rw [value_no_newline_of_not_mem v hv]
  congr 1
  exact section_list_set_append_last pre s k v es hs hk

theorem replay_entries (es : List entry_t) :
    ∀ (acc : List entry_t) (pre : List section_t) (s : Str),
      s ∉ pre.map (fun t => t.name) →
      ((acc ++ es).map (fun e => e.key)).Nodup →
      (∀ e ∈ es, '\n' ∉ e.value) →
      es.foldl (fun c e => config_set_string c s e.key e.value) ⟨pre ++ [⟨s, acc⟩]⟩
        = ⟨pre ++ [⟨s, acc ++ es⟩]⟩ := by
  induction es with
  | nil => intro acc pre s _ _ _; simp
  | cons e rest ih =>
    intro acc pre s hs hnd hv
    have hk : e.key ∉ acc.map (fun e => e.key) := by
      intro hm
      rw [List.map_append] at hnd
      rcases List.nodup_append.mp hnd with ⟨_, _, hdisj⟩
      exact hdisj hm (by simp)
    simp only [List.foldl_cons]
    rw [config_set_string_last_section pre s e.key e.value acc hs hk
      (hv e (by simp))]
    have := ih (acc ++ [e]) pre s hs
      (by simpa using hnd) (fun x hx => hv x (by simp [hx]))
    simpa using this

theorem replay_section (es : List entry_t) (cfg : config_t) (s : Str)
    (hs : s ∉ cfg.sections.map (fun t => t.name))
    (hnd : (es.map (fun e => e.key)).Nodup) (hne : es ≠ [])
    (hv : ∀ e ∈ es, '\n' ∉ e.value) :
    es.foldl (fun c e => config_set_string c s e.key e.value) cfg
      = ⟨cfg.sections ++ [⟨s, es⟩]⟩ := by
  cases es with
  | nil => exact absurd rfl hne
  | cons e rest =>
    simp only [List.foldl_cons]
    rw [config_set_string_new_section cfg s e.key e.value hs (hv e (by simp))]
    have := replay_entries rest [e] cfg.sections s hs
      (by simpa using hnd) (fun x hx => hv x (by simp [hx]))
    simpa using this

theorem parse_save_aux (ss : List section_t) :
    ∀ (cfg : config_t) (sec0 : Str),
      (ss.map (fun t => t.name)).Nodup →
      (∀ s ∈ ss, section_save_ok s) →
      (∀ s ∈ ss, s.name ∉ cfg.sections.map (fun t => t.name)) →
      ((split_lines (config_save_text ss)).foldl parse_line_step
          ⟨cfg, sec0, false⟩).config
        = ⟨cfg.sections ++ ss⟩ := by
  induction ss with
  | nil =>
    intro cfg sec0 _ _ _
    simp [config_save_text, split_lines_nil]
  | cons s rest ih =>
    intro cfg sec0 hnd hok hdisj
    have hsok := hok s (by simp)
    have hsdisj := hdisj s (by simp)
    obtain ⟨hname, hnl, hlen, hene, hknd, hes⟩ := hsok
    have hkv : ∀ e ∈ s.entries, save_key_ok e.key ∧ save_value_ok e.value :=
      fun e he => ⟨(hes e he).1, (hes e he).2.1⟩
    have hvnl : ∀ e ∈ s.entries, '\n' ∉ e.value :=
      fun e he => (hes e he).2.1.2.2.2
    cases rest with
    | nil =>
      have htext : config_save_text [s] = section_text s ++ [] := by
        simp [config_save_text]
      rw [htext, split_lines_section_block s [] ⟨hname, hnl, hlen, hene, hknd, hes⟩,
        split_lines_nil, List.append_nil, List.foldl_cons, header_line_step,
        foldl_entry_lines s.entries hkv cfg s.name]
      show (List.foldl (fun c e => config_set_string c s.name e.key e.value) cfg s.entries)
          = ({ sections := cfg.sections ++ [s] } : config_t)
      rw [replay_section s.entries cfg s.name hsdisj hknd hene hvnl]
    | cons s2 rest2 =>
      have htext : config_save_text (s :: s2 :: rest2)
          = section_text s ++ ('
' :: config_save_text (s2 :: rest2)) := rfl
      rw [htext, split_lines_section_block s _ ⟨hname, hnl, hlen, hene, hknd, hes⟩]
      rw [show ('
' :: config_save_text (s2 :: rest2))
          = [] ++ '
' :: config_save_text (s2 :: rest2) from rfl]
      rw [split_lines_cons [] _ (by simp) (by simp)]
      simp only [List.nil_append]
      rw [List.foldl_cons, header_line_step, List.foldl_append,
        foldl_entry_lines s.entries hkv cfg s.name, List.foldl_cons, blank_line_step,
        replay_section s.entries cfg s.name hsdisj hknd hene hvnl]
      have hnd2 : ((s2 :: rest2).map (fun t => t.name)).Nodup := by
        simp only [List.map_cons, List.nodup_cons] at hnd ⊢
        exact ⟨hnd.2.1, hnd.2.2⟩
      have hdisj2 : ∀ t ∈ s2 :: rest2,
          t.name ∉ (⟨cfg.sections ++ [s]⟩ : config_t).sections.map (fun t => t.name) := by
        intro t ht
        show t.name ∉ (cfg.sections ++ [s]).map (fun t => t.name)
        rw [List.map_append]
        intro hm
        rcases List.mem_append.mp hm with hm | hm
        · exact hdisj t (by simp [ht]) hm
        · simp only [List.map_cons, List.map_nil, List.mem_singleton] at hm
          simp only [List.map_cons, List.nodup_cons] at hnd
          exact hnd.1 (hm ▸ List.mem_map.mpr ⟨t, ht, rfl⟩)
      rw [ih ⟨cfg.sections ++ [s]⟩ s.name hnd2 (fun t ht => hok t (by simp [ht])) hdisj2]
      simp

/-- C1 counterexample: the store built by the single call
`config_set_string(empty, "A", "k", " v")` stores the newline-free value
`" v"` unchanged, but `config_save` writes the line `k =  v` and the parser
trims the value back to `"v"`, so save-then-load does not reproduce the
store. -/
theorem c1_round_trip_fails :
    config_new_text (config_save_string
        (config_set_string config_new_empty "A".data "k".data " v".data))
      ≠ config_set_string config_new_empty "A".data "k".data " v".data := by
  decide

/-- C1 (amended): for every store satisfying `config_save_ok` — section
names unique, not starting with `'#'`, newline-free and of length at most
1019; every section nonempty with unique keys; keys and values nonempty with
no leading or trailing whitespace and no newline, keys free of `'='` and not
starting with `'#'` or `'['`; and each key/value line within the parser's
1023-character limit — serializing with `config_save` and re-parsing yields
the identical store: same section order, same entry order, same values. -/
theorem c1_round_trip (c : config_t) (h : config_save_ok c) :
    config_new_text (config_save_string c) = c := by
  show ((split_lines (config_save_text c.sections)).foldl parse_line_step
      ⟨⟨[]⟩, CONFIG_DEFAULT_SECTION, false⟩).config = c
  rw [parse_save_aux c.sections ⟨[]⟩ CONFIG_DEFAULT_SECTION h.1 h.2 (by simp)]
  simp

theorem c1_round_trip_witness :
    config_save_ok ⟨[⟨"Info".data, [⟨"Version".data, "1".data⟩]⟩,
        ⟨"Device".data, [⟨"Name".data, "Widget".data⟩]⟩]⟩ ∧
    config_new_text (config_save_string ⟨[⟨"Info".data, [⟨"Version".data, "1".data⟩]⟩,
        ⟨"Device".data, [⟨"Name".data, "Widget".data⟩]⟩]⟩)
      = ⟨[⟨"Info".data, [⟨"Version".data, "1".data⟩]⟩,
          ⟨"Device".data, [⟨"Name".data, "Widget".data⟩]⟩]⟩ :=
  ⟨by decide,
    c1_round_trip ⟨[⟨"Info".data, [⟨"Version".data, "1".data⟩]⟩,
        ⟨"Device".data, [⟨"Name".data, "Widget".data⟩]⟩]⟩ (by decide)⟩
